import Mathlib

/-!
Verification of the data-preparation pipeline in
`src/data/shakespeare_char/prepare.py`.

The script reads a text file, UTF-8 encodes it and truncates to 40 bytes,
builds a byte-level vocabulary (sorted distinct bytes, code `i` for the
`i`-th smallest byte), encodes the corpus, computes a per-position word
boundary stream, slices both streams at `int(n*0.9)` and `int(n*0.95)`,
and serializes codes as `uint16` and boundary flags as `uint8` bytes,
together with a meta record holding both directions of the mapping.

Bytes and codes are modelled as `Nat`; Python `dict` lookups that may raise
`KeyError` are modelled as `Option`-valued functions, and fallible steps
return `Option`.
-/

namespace Prepare

/-- The fixed byte set `b' \t\n.,!?;:()[]{}"\''` tested by `is_space_or_punct`
in `create_word_boundaries` (byte values of the 17 characters). -/
def space_punct_bytes : List Nat :=
  [32, 9, 10, 46, 44, 33, 63, 59, 58, 40, 41, 91, 93, 123, 125, 34, 39]

/-- Byte-level core of `is_start_of_char`: `(byte < 128) or (192 <= byte <= 247)`. -/
def is_start_of_char_byte (b : Nat) : Bool :=
  decide (b < 128) || (decide (192 ≤ b) && decide (b ≤ 247))

/-- Byte-level core of `is_space_or_punct`: membership in the fixed byte set. -/
def is_space_or_punct_byte (b : Nat) : Bool :=
  space_punct_bytes.contains b

/-- A Python list comprehension / vectorized map in which every element goes
through a dict lookup that may raise `KeyError`: the whole map fails if any
single lookup fails. -/
def mapLookup {α β : Type} (f : α → Option β) : List α → Option (List β)
  | [] => some []
  | x :: xs =>
    match f x, mapLookup f xs with
    | some y, some ys => some (y :: ys)
    | _, _ => none

/-- `utf_bytes = sorted(list(set(utf8_data)))`: the distinct byte values of the
corpus in ascending order. -/
def utf_bytes (corpus : List Nat) : List Nat :=
  corpus.dedup.insertionSort (· ≤ ·)

/-- `byte_to_idx = {ch: i for i, ch in enumerate(utf_bytes)}`, as a partial map:
a byte present in the corpus maps to its index in the sorted distinct list,
any other byte is a `KeyError` (`none`). -/
def byte_to_idx (corpus : List Nat) (b : Nat) : Option Nat :=
  if b ∈ utf_bytes corpus then some ((utf_bytes corpus).indexOf b) else none

/-- `idx_to_byte = {i: ch for i, ch in enumerate(utf_bytes)}`, as a partial map:
code `i` maps to the `i`-th entry of the sorted distinct byte list. -/
def idx_to_byte (corpus : List Nat) (i : Nat) : Option Nat :=
  (utf_bytes corpus)[i]?

/-- `encoded_data = [byte_to_idx[b] for b in utf8_data]` against an arbitrary
supplied vocabulary map. -/
def encode (data : List Nat) (b2i : Nat → Option Nat) : Option (List Nat) :=
  mapLookup b2i data

/-- Decoding a code sequence through the `idx_to_byte` direction of a
vocabulary, one lookup per code. -/
def decode (codes : List Nat) (i2b : Nat → Option Nat) : Option (List Nat) :=
  mapLookup i2b codes

/-- The code sequence `encode` produces when the vocabulary was built from the
same corpus: byte `b` goes to its index in the sorted distinct byte list. -/
def encodeAll (corpus : List Nat) : List Nat :=
  corpus.map fun b => (utf_bytes corpus).indexOf b

/-- `is_start_of_char(byte_idx)` from `create_word_boundaries`: decode the code
through `idx_to_byte` (a dict lookup, may fail), then test the lead-byte ranges. -/
def is_start_of_char (i2b : Nat → Option Nat) (byte_idx : Nat) : Option Bool :=
  (i2b byte_idx).map is_start_of_char_byte

/-- `is_space_or_punct(byte_idx)` from `create_word_boundaries`: decode the code
through `idx_to_byte`, then test membership in the fixed byte set. -/
def is_space_or_punct (i2b : Nat → Option Nat) (byte_idx : Nat) : Option Bool :=
  (i2b byte_idx).map is_space_or_punct_byte

/-- `create_word_boundaries(encoded_data, byte_to_idx, idx_to_byte)`.

Steps in source order: `space_idx = byte_to_idx[ord(' ')]` (KeyError when the
corpus has no space byte); `prev_encoded = np.pad(encoded_data[:-1], (1, 0),
constant_values=space_idx)`; the three vectorized predicate maps (each
`idx_to_byte` lookup may fail; `np.vectorize` also raises on a size-0 input,
hence the empty-input failure); finally
`start_of_char_flags & (space_or_punct_flags | prev_is_space_or_punct)`
cast to `uint8` (1 for True, 0 for False). -/
def create_word_boundaries (encoded_data : List Nat)
    (b2i i2b : Nat → Option Nat) : Option (List Nat) :=
  (b2i 32).bind fun space_idx =>
    if encoded_data = [] then none
    else
      (mapLookup (is_start_of_char i2b) encoded_data).bind fun start_of_char_flags =>
        (mapLookup (is_space_or_punct i2b) encoded_data).bind fun space_or_punct_flags =>
          (mapLookup (is_space_or_punct i2b) (space_idx :: encoded_data.dropLast)).bind
            fun prev_is_space_or_punct =>
              some (List.zipWith (fun a p => if a && p then 1 else 0) start_of_char_flags
                (List.zipWith (· || ·) space_or_punct_flags prev_is_space_or_punct))

/-- The slicing `s[:int(n*0.9)]`, `s[int(n*0.9):int(n*0.95)]`, `s[int(n*0.95):]`
applied in `main` to both the code stream and the boundary stream, with `n` the
corpus length.  For every reachable length (`n ≤ 40` after the 40-byte
truncation) Python's `int(n*0.9)` and `int(n*0.95)` on floats equal the exact
rational floors `n*9/10` and `n*19/20` used here. -/
def split3 (s : List Nat) (n : Nat) : List Nat × List Nat × List Nat :=
  (s.take (n * 9 / 10),
    (s.drop (n * 9 / 10)).take (n * 19 / 20 - n * 9 / 10),
    s.drop (n * 19 / 20))

/-- `numpy.ndarray.tofile` on a `uint16` array: two bytes per element
(little-endian on the writing platform). -/
def serialize_u16 (codes : List Nat) : List Nat :=
  (codes.map fun c => [c % 256, c / 256 % 256]).flatten

/-- The files and the meta record `main` produces: the three `uint16` code
files, the three one-byte-per-position boundary files, and `meta.pkl`'s
`vocab_size` plus both mapping directions as ordered pairs. -/
structure PipelineOutput where
  vocab_size : Nat
  train_bin : List Nat
  val_bin : List Nat
  test_bin : List Nat
  train_word_boundaries : List Nat
  val_word_boundaries : List Nat
  test_word_boundaries : List Nat
  meta_idx_to_byte : List (Nat × Nat)
  meta_byte_to_idx : List (Nat × Nat)
  deriving DecidableEq

/-- `main()` on the UTF-8 byte sequence of the input file's text:
`utf8_data = data.encode('utf-8')[:40]`, vocabulary construction, encoding,
boundary computation, 90/5/5 slicing of both streams, serialization. -/
def main (input_bytes : List Nat) : Option PipelineOutput :=
  let utf8_data := input_bytes.take 40
  let vs := utf_bytes utf8_data
  (encode utf8_data (byte_to_idx utf8_data)).bind fun encoded_data =>
    (create_word_boundaries encoded_data (byte_to_idx utf8_data)
        (idx_to_byte utf8_data)).bind fun word_boundaries =>
      let n := utf8_data.length
      let dataSplit := split3 encoded_data n
      let wbSplit := split3 word_boundaries n
      some ⟨vs.length,
        serialize_u16 dataSplit.1, serialize_u16 dataSplit.2.1, serialize_u16 dataSplit.2.2,
        wbSplit.1, wbSplit.2.1, wbSplit.2.2,
        vs.enum, vs.enum.map Prod.swap⟩

/-- The per-position boundary rule as the specification states it, directly on
raw corpus bytes (the comparison point for the refinement proof about
`create_word_boundaries`): flag `i` is 1 iff byte `i` is a lead byte and
byte `i` or byte `i-1` (taken to be the space byte `0x20` when `i = 0`) is in
the fixed space/punctuation set. -/
def boundary_flag_spec (corpus : List Nat) (i : Nat) : Nat :=
  if is_start_of_char_byte (corpus.getD i 0)
      && (is_space_or_punct_byte (corpus.getD i 0)
        || is_space_or_punct_byte (if i = 0 then 32 else corpus.getD (i - 1) 0))
  then 1 else 0

/-- The whole boundary stream as the specification describes it. -/
def boundary_spec_list (corpus : List Nat) : List Nat :=
  (List.range corpus.length).map (boundary_flag_spec corpus)

/-- The flag at position 0 of a possibly-failed boundary computation. -/
def flagAt0 (o : Option (List Nat)) : Option Nat :=
  o.map fun l => l.getD 0 0

/-! ## Vocabulary lemmas -/

theorem mem_utf_bytes {b : Nat} {corpus : List Nat} :
    b ∈ utf_bytes corpus ↔ b ∈ corpus := by
  unfold utf_bytes
  rw [(List.perm_insertionSort _ _).mem_iff, List.mem_dedup]

theorem nodup_utf_bytes (corpus : List Nat) : (utf_bytes corpus).Nodup :=
  (List.perm_insertionSort _ _).nodup_iff.mpr (List.nodup_dedup corpus)

theorem sorted_utf_bytes (corpus : List Nat) : (utf_bytes corpus).Sorted (· ≤ ·) :=
  List.sorted_insertionSort _ _

theorem length_utf_bytes (corpus : List Nat) :
    (utf_bytes corpus).length = corpus.dedup.length :=
  (List.perm_insertionSort _ _).length_eq

theorem byte_to_idx_mem {corpus : List Nat} {b : Nat} (h : b ∈ corpus) :
    byte_to_idx corpus b = some ((utf_bytes corpus).indexOf b) := by
  unfold byte_to_idx
  rw [if_pos (mem_utf_bytes.mpr h)]

theorem byte_to_idx_not_mem {corpus : List Nat} {b : Nat} (h : b ∉ corpus) :
    byte_to_idx corpus b = none := by
  unfold byte_to_idx
  rw [if_neg (fun hc => h (mem_utf_bytes.mp hc))]

theorem indexOf_lt_length_utf_bytes {corpus : List Nat} {b : Nat} (h : b ∈ corpus) :
    (utf_bytes corpus).indexOf b < (utf_bytes corpus).length :=
  List.indexOf_lt_length.mpr (mem_utf_bytes.mpr h)

theorem idx_to_byte_indexOf {corpus : List Nat} {b : Nat} (h : b ∈ corpus) :
    idx_to_byte corpus ((utf_bytes corpus).indexOf b) = some b := by
  unfold idx_to_byte
  rw [List.getElem?_eq_getElem (indexOf_lt_length_utf_bytes h),
    List.getElem_indexOf (indexOf_lt_length_utf_bytes h)]

/-! ## mapLookup lemmas -/

theorem mapLookup_map_eq {α β γ : Type} (f : β → Option γ) (e : α → β) (g : α → γ) :
    ∀ l : List α, (∀ x ∈ l, f (e x) = some (g x)) →
      mapLookup f (l.map e) = some (l.map g)
  | [], _ => rfl
  | x :: xs, h => by
    have hx : f (e x) = some (g x) := h x (List.mem_cons_self x xs)
    have hxs : mapLookup f (xs.map e) = some (xs.map g) :=
      mapLookup_map_eq f e g xs fun y hy => h y (List.mem_cons_of_mem x hy)
    simp only [List.map_cons, mapLookup, hx, hxs]

theorem mapLookup_eq_some {α β : Type} (f : α → Option β) (g : α → β) :
    ∀ l : List α, (∀ x ∈ l, f x = some (g x)) → mapLookup f l = some (l.map g)
  | [], _ => rfl
  | x :: xs, h => by
    have hx : f x = some (g x) := h x (List.mem_cons_self x xs)
    have hxs : mapLookup f xs = some (xs.map g) :=
      mapLookup_eq_some f g xs fun y hy => h y (List.mem_cons_of_mem x hy)
    simp only [List.map_cons, mapLookup, hx, hxs]

theorem mapLookup_eq_none_iff {α β : Type} (f : α → Option β) (l : List α) :
    mapLookup f l = none ↔ ∃ x, x ∈ l ∧ f x = none := by
  induction l with
  | nil => simp [mapLookup]
  | cons x xs ih =>
    cases hfx : f x with
    | none =>
      simp only [mapLookup, hfx]
      exact iff_of_true trivial ⟨x, List.mem_cons_self x xs, hfx⟩
    | some y =>
      cases hrec : mapLookup f xs with
      | none =>
        simp only [mapLookup, hfx, hrec]
        obtain ⟨z, hz, hfz⟩ := ih.mp hrec
        exact iff_of_true trivial ⟨z, List.mem_cons_of_mem x hz, hfz⟩
      | some ys =>
        simp only [mapLookup, hfx, hrec]
        constructor
        · intro hcontra
          exact absurd hcontra (by simp)
        · rintro ⟨z, hz, hfz⟩
          rcases List.mem_cons.mp hz with rfl | hz2
          · rw [hfx] at hfz
            exact absurd hfz (by simp)
          · have := ih.mpr ⟨z, hz2, hfz⟩
            rw [hrec] at this
            exact absurd this (by simp)

theorem mapLookup_some_spec (f : Nat → Option Nat) (l : List Nat) (r : List Nat)
    (h : mapLookup f l = some r) :
    r.length = l.length ∧ ∀ i, i < l.length → f (l.getD i 0) = some (r.getD i 0) := by
  induction l generalizing r with
  | nil =>
    simp only [mapLookup, Option.some.injEq] at h
    subst h
    simp
  | cons x xs ih =>
    cases hfx : f x with
    | none => simp [mapLookup, hfx] at h
    | some y =>
      cases hrec : mapLookup f xs with
      | none => simp [mapLookup, hfx, hrec] at h
      | some ys =>
        simp only [mapLookup, hfx, hrec, Option.some.injEq] at h
        subst h
        obtain ⟨hlen, hpt⟩ := ih ys hrec
        refine ⟨by simp [hlen], fun i hi => ?_⟩
        cases i with
        | zero => simpa using hfx
        | succ j =>
          simp only [List.getD_cons_succ]
          exact hpt j (by simpa using hi)

/-! ## Encoder lemmas -/

theorem encode_encodeAll (corpus : List Nat) :
    encode corpus (byte_to_idx corpus) = some (encodeAll corpus) :=
  mapLookup_eq_some _ _ corpus fun _ hb => byte_to_idx_mem hb

theorem decode_encodeAll (corpus : List Nat) :
    decode (encodeAll corpus) (idx_to_byte corpus) = some corpus := by
  have h := mapLookup_map_eq (idx_to_byte corpus)
    (fun b => (utf_bytes corpus).indexOf b) id corpus
    (fun b hb => idx_to_byte_indexOf hb)
  simpa [decode, encodeAll] using h

/-! ## BoundaryClassifier lemmas -/

theorem mapLookup_start_of_char (corpus : List Nat) :
    mapLookup (is_start_of_char (idx_to_byte corpus)) (encodeAll corpus)
      = some (corpus.map is_start_of_char_byte) :=
  mapLookup_map_eq _ _ _ corpus fun b hb => by
    simp [is_start_of_char, idx_to_byte_indexOf hb]

theorem mapLookup_space_or_punct (corpus : List Nat) :
    mapLookup (is_space_or_punct (idx_to_byte corpus)) (encodeAll corpus)
      = some (corpus.map is_space_or_punct_byte) :=
  mapLookup_map_eq _ _ _ corpus fun b hb => by
    simp [is_space_or_punct, idx_to_byte_indexOf hb]

theorem mapLookup_space_or_punct_prev (corpus : List Nat) (hsp : 32 ∈ corpus) :
    mapLookup (is_space_or_punct (idx_to_byte corpus))
        ((32 :: corpus.dropLast).map fun b => (utf_bytes corpus).indexOf b)
      = some ((32 :: corpus.dropLast).map is_space_or_punct_byte) :=
  mapLookup_map_eq _ _ _ (32 :: corpus.dropLast) fun b hb => by
    have hbc : b ∈ corpus := by
      rcases List.mem_cons.mp hb with rfl | hb2
      · exact hsp
      · exact List.dropLast_subset _ hb2
    simp [is_space_or_punct, idx_to_byte_indexOf hbc]

/-- Under the (implicit) precondition that the corpus contains the space byte,
`create_word_boundaries` on the encoded corpus succeeds and computes exactly
the per-position rule of the specification. -/
theorem create_word_boundaries_eq (corpus : List Nat) (hsp : 32 ∈ corpus) :
    create_word_boundaries (encodeAll corpus) (byte_to_idx corpus) (idx_to_byte corpus)
      = some (boundary_spec_list corpus) := by
  have hne : corpus ≠ [] := List.ne_nil_of_mem hsp
  have hn : 0 < corpus.length := List.length_pos.mpr hne
  have hence : encodeAll corpus ≠ [] := by
    simpa [encodeAll] using hne
  have hprev : ((utf_bytes corpus).indexOf 32) :: (encodeAll corpus).dropLast
      = (32 :: corpus.dropLast).map fun b => (utf_bytes corpus).indexOf b := by
    simp [encodeAll, List.map_dropLast]
  unfold create_word_boundaries
  rw [byte_to_idx_mem hsp, Option.some_bind, if_neg hence,
    mapLookup_start_of_char corpus, Option.some_bind,
    mapLookup_space_or_punct corpus, Option.some_bind,
    hprev, mapLookup_space_or_punct_prev corpus hsp, Option.some_bind,
    Option.some.injEq]
  apply List.ext_getElem
  · simp [boundary_spec_list, List.length_dropLast]
    omega
  · intro i h1 h2
    have hi : i < corpus.length := by
      simpa [boundary_spec_list] using h2
    have hprevlen : i < (32 :: corpus.dropLast).length := by
      simp [List.length_dropLast]
      omega
    simp only [boundary_spec_list, List.getElem_map, List.getElem_range,
      List.getElem_zipWith, boundary_flag_spec]
    have hcurr : corpus[i]? = some corpus[i] := List.getElem?_eq_getElem hi
    cases i with
    | zero =>
      simp [hcurr]
    | succ j =>
      have hj : j < corpus.length := Nat.lt_of_succ_lt hi
      have hjd : j < corpus.dropLast.length := by
        simp [List.length_dropLast]
        omega
      have hjq : corpus[j]? = some corpus[j] := List.getElem?_eq_getElem hj
      have hpe : (32 :: corpus.dropLast)[j + 1] = corpus[j] := by
        simp only [List.getElem_cons_succ]
        exact List.getElem_dropLast corpus j hjd
      simp [hcurr, hpe, hjq]

/-- Every flag the specification rule produces is 0 or 1. -/
theorem boundary_spec_list_flags (corpus : List Nat) :
    ∀ x ∈ boundary_spec_list corpus, x = 0 ∨ x = 1 := by
  intro x hx
  obtain ⟨i, _, rfl⟩ := List.mem_map.mp hx
  unfold boundary_flag_spec
  rcases ite_eq_or_eq
      ((is_start_of_char_byte (corpus.getD i 0)
        && (is_space_or_punct_byte (corpus.getD i 0)
          || is_space_or_punct_byte (if i = 0 then 32 else corpus.getD (i - 1) 0))) = true)
      1 0 with h | h
  · exact Or.inr h
  · exact Or.inl h

/-- The boundary stream of the specification rule has the corpus's length. -/
theorem boundary_spec_list_length (corpus : List Nat) :
    (boundary_spec_list corpus).length = corpus.length := by
  simp [boundary_spec_list]

/-- If `create_word_boundaries` succeeded, the `byte_to_idx[ord(' ')]` lookup
it begins with succeeded. -/
theorem create_word_boundaries_space {encoded : List Nat} {b2i i2b : Nat → Option Nat}
    {wb : List Nat} (h : create_word_boundaries encoded b2i i2b = some wb) :
    b2i 32 ≠ none := by
  intro hnone
  unfold create_word_boundaries at h
  rw [hnone] at h
  exact absurd h (by simp)

/-! ## SplitWriter and serialization lemmas -/

theorem length_serialize_u16 (codes : List Nat) :
    (serialize_u16 codes).length = 2 * codes.length := by
  induction codes with
  | nil => rfl
  | cons c cs ih =>
    simp only [serialize_u16, List.map_cons, List.flatten_cons, List.length_append,
      List.length_cons, List.length_nil]
    simp only [serialize_u16] at ih
    omega

theorem split3_length_sum (s : List Nat) (n : Nat) (h : s.length = n) :
    (split3 s n).1.length + (split3 s n).2.1.length + (split3 s n).2.2.length = n := by
  subst h
  simp only [split3, List.length_take, List.length_drop]
  omega

theorem split3_append (s : List Nat) (n : Nat) :
    (split3 s n).1 ++ (split3 s n).2.1 ++ (split3 s n).2.2 = s := by
  simp only [split3]
  have hdd : s.drop (n * 19 / 20)
      = (s.drop (n * 9 / 10)).drop (n * 19 / 20 - n * 9 / 10) := by
    rw [List.drop_drop]
    congr 1
    omega
  rw [hdd, List.append_assoc, List.take_append_drop, List.take_append_drop]

theorem split3_subset_left (s : List Nat) (n : Nat) : (split3 s n).1 ⊆ s :=
  List.take_subset _ _

theorem split3_subset_mid (s : List Nat) (n : Nat) : (split3 s n).2.1 ⊆ s :=
  fun _ hx => List.drop_subset _ _ (List.take_subset _ _ hx)

theorem split3_subset_right (s : List Nat) (n : Nat) : (split3 s n).2.2 ⊆ s :=
  List.drop_subset _ _

/-! ## Claim theorems -/

/-- C1 (amended: the corpus must contain the space byte 0x20, otherwise
`create_word_boundaries` fails on its `byte_to_idx[ord(' ')]` lookup and
produces no output at all): for every corpus containing the space byte,
encoding succeeds, the boundary computation succeeds, its output has the
length of the corpus, and the flag at position `i` is 1 iff byte `i` is a
lead byte (`< 0x80` or in `[0xC0, 0xF7]`) and byte `i` or the previous byte
(the space byte 0x20 when `i = 0`) is in the fixed space/punctuation set. -/
theorem boundary_characterization (corpus : List Nat) (hsp : 32 ∈ corpus) :
    encode corpus (byte_to_idx corpus) = some (encodeAll corpus) ∧
    create_word_boundaries (encodeAll corpus) (byte_to_idx corpus) (idx_to_byte corpus)
      = some (boundary_spec_list corpus) ∧
    (boundary_spec_list corpus).length = corpus.length ∧
    ∀ i, i < corpus.length →
      ((boundary_spec_list corpus).getD i 0 = 1 ↔
        (is_start_of_char_byte (corpus.getD i 0) = true ∧
          (is_space_or_punct_byte (corpus.getD i 0) = true ∨
            is_space_or_punct_byte (if i = 0 then 32 else corpus.getD (i - 1) 0) = true))) := by
  refine ⟨encode_encodeAll corpus, create_word_boundaries_eq corpus hsp,
    boundary_spec_list_length corpus, fun i hi => ?_⟩
  have hlen : i < (boundary_spec_list corpus).length := by
    rw [boundary_spec_list_length]
    exact hi
  have hget : (boundary_spec_list corpus).getD i 0 = boundary_flag_spec corpus i := by
    rw [List.getD_eq_getElem _ 0 hlen]
    simp [boundary_spec_list]
  rw [hget]
  unfold boundary_flag_spec
  by_cases hc : (is_start_of_char_byte (corpus.getD i 0)
      && (is_space_or_punct_byte (corpus.getD i 0)
        || is_space_or_punct_byte (if i = 0 then 32 else corpus.getD (i - 1) 0))) = true
  · rw [if_pos hc]
    simp only [Bool.and_eq_true, Bool.or_eq_true] at hc
    exact iff_of_true rfl hc
  · rw [if_neg hc]
    simp only [Bool.and_eq_true, Bool.or_eq_true] at hc
    exact iff_of_false (by decide) hc

/-- Witness for C1's theorem at the concrete corpus "H " (bytes 72, 32). -/
theorem boundary_characterization_witness :
    create_word_boundaries (encodeAll [72, 32]) (byte_to_idx [72, 32]) (idx_to_byte [72, 32])
      = some (boundary_spec_list [72, 32]) ∧
    (boundary_spec_list [72, 32]).length = ([72, 32] : List Nat).length := by
  have h := boundary_characterization [72, 32] (by decide)
  exact ⟨h.2.1, h.2.2.1⟩

/-- Counterexample to C1 as stated: the non-empty corpus "H" (byte 72) has no
space byte, so `create_word_boundaries` fails on the `byte_to_idx[ord(' ')]`
lookup and returns no boundary sequence at all. -/
theorem boundary_requires_space_cex :
    encode [72] (byte_to_idx [72]) = some [0] ∧
    create_word_boundaries [0] (byte_to_idx [72]) (idx_to_byte [72]) = none := by
  decide

/-- C2: every derived sequence of length `n` is cut at exactly
`floor(n * 0.90)` and `floor(n * 0.95)`: the slices are the stated
contiguous intervals, their lengths sum to `n`, their concatenation is the
original sequence, and for `n = 1` train and val are empty while test holds
the single element. -/
theorem split_completeness (s : List Nat) (n : Nat) (h : s.length = n) :
    (split3 s n).1 = s.take (n * 9 / 10) ∧
    (split3 s n).2.1 = (s.drop (n * 9 / 10)).take (n * 19 / 20 - n * 9 / 10) ∧
    (split3 s n).2.2 = s.drop (n * 19 / 20) ∧
    (split3 s n).1.length + (split3 s n).2.1.length + (split3 s n).2.2.length = n ∧
    (split3 s n).1 ++ (split3 s n).2.1 ++ (split3 s n).2.2 = s ∧
    (n = 1 → (split3 s n).1 = [] ∧ (split3 s n).2.1 = [] ∧ (split3 s n).2.2 = s) := by
  refine ⟨rfl, rfl, rfl, split3_length_sum s n h, split3_append s n, fun h1 => ?_⟩
  subst h1
  simp [split3]

/-- Witness for C2's theorem at the one-element sequence `[9]`, also
discharging the `n = 1` clause. -/
theorem split_completeness_witness :
    (split3 [9] 1).1 = [] ∧ (split3 [9] 1).2.1 = [] ∧ (split3 [9] 1).2.2 = [9] := by
  have h := split_completeness [9] 1 rfl
  exact h.2.2.2.2.2 rfl

/-- C3: the pipeline only processes the first 40 bytes of the UTF-8 input:
its whole output (vocabulary, encoded stream, boundary stream, all six split
files and the meta record) is unchanged when the input is truncated to its
40-byte prefix. -/
theorem pipeline_prefix_40 (input_bytes : List Nat) :
    main input_bytes = main (input_bytes.take 40) := by
  simp only [main, List.take_take, Nat.min_self]

/-- C4 (amended: the corpus must contain the space byte — else the boundary
computation fails outright — and its first byte must be a lead byte, which
every well-formed UTF-8 text satisfies): under those two conditions the flag
at position 0 is 1. -/
theorem first_flag_amended (corpus : List Nat) (hsp : 32 ∈ corpus)
    (hlead : is_start_of_char_byte (corpus.getD 0 0) = true) :
    flagAt0 (create_word_boundaries (encodeAll corpus) (byte_to_idx corpus)
      (idx_to_byte corpus)) = some 1 := by
  rw [create_word_boundaries_eq corpus hsp]
  unfold flagAt0
  rw [Option.map_some']
  have hn : 0 < corpus.length := List.length_pos.mpr (List.ne_nil_of_mem hsp)
  have hlen : 0 < (boundary_spec_list corpus).length := by
    rw [boundary_spec_list_length]
    exact hn
  rw [List.getD_eq_getElem _ 0 hlen]
  have h0 : corpus[0]? = some corpus[0] := List.getElem?_eq_getElem hn
  have hlead2 : is_start_of_char_byte corpus[0] = true := by
    rwa [List.getD_eq_getElem corpus 0 hn] at hlead
  simp [boundary_spec_list, boundary_flag_spec, h0, hlead2, is_space_or_punct_byte,
    space_punct_bytes]

/-- Witness for C4's amended theorem at the concrete corpus "H " (72, 32). -/
theorem first_flag_amended_witness :
    flagAt0 (create_word_boundaries (encodeAll [72, 32]) (byte_to_idx [72, 32])
      (idx_to_byte [72, 32])) = some 1 :=
  first_flag_amended [72, 32] (by decide) (by decide)

/-- Counterexample to C4 as stated: the non-empty corpus [0x80, 0x20] starts
with a UTF-8 continuation byte; the boundary computation succeeds (the space
byte is present) but the flag at position 0 is 0, not 1. -/
theorem first_flag_cex :
    encode [128, 32] (byte_to_idx [128, 32]) = some [1, 0] ∧
    create_word_boundaries [1, 0] (byte_to_idx [128, 32]) (idx_to_byte [128, 32])
      = some [0, 1] ∧
    flagAt0 (create_word_boundaries [1, 0] (byte_to_idx [128, 32])
      (idx_to_byte [128, 32])) ≠ some 1 := by
  decide

/-- C5: the vocabulary is the ascending list of the distinct bytes of the
corpus: its size is the number of distinct bytes, it is sorted and duplicate
free, `byte_to_idx` sends exactly the bytes of the corpus to codes (their
positions in that list, all below `vocab_size`), `idx_to_byte` inverts it,
and every code below `vocab_size` is the image of a corpus byte. -/
theorem vocab_bijection (C : List Nat) :
    (utf_bytes C).length = C.dedup.length ∧
    (utf_bytes C).Sorted (· ≤ ·) ∧
    (utf_bytes C).Nodup ∧
    (∀ b, b ∈ utf_bytes C ↔ b ∈ C) ∧
    (∀ b, b ∈ C → byte_to_idx C b = some ((utf_bytes C).indexOf b) ∧
      (utf_bytes C).indexOf b < (utf_bytes C).length ∧
      idx_to_byte C ((utf_bytes C).indexOf b) = some b) ∧
    (∀ b, b ∉ C → byte_to_idx C b = none) ∧
    (∀ i, i < (utf_bytes C).length →
      (utf_bytes C).getD i 0 ∈ C ∧ byte_to_idx C ((utf_bytes C).getD i 0) = some i) := by
  refine ⟨length_utf_bytes C, sorted_utf_bytes C, nodup_utf_bytes C,
    fun b => mem_utf_bytes,
    fun b hb => ⟨byte_to_idx_mem hb, indexOf_lt_length_utf_bytes hb, idx_to_byte_indexOf hb⟩,
    fun b hb => byte_to_idx_not_mem hb, fun i hi => ?_⟩
  have hget : (utf_bytes C).getD i 0 = (utf_bytes C)[i] := List.getD_eq_getElem _ 0 hi
  have hmem : (utf_bytes C)[i] ∈ utf_bytes C := List.getElem_mem hi
  constructor
  · rw [hget]
    exact mem_utf_bytes.mp hmem
  · rw [hget]
    unfold byte_to_idx
    rw [if_pos hmem, List.indexOf_getElem (nodup_utf_bytes C) i hi]

/-- Witness for C5's theorem at the corpus "H " (72, 32): byte 72 is mapped,
byte 99 (absent) is not. -/
theorem vocab_bijection_witness :
    byte_to_idx [72, 32] 72 = some ((utf_bytes [72, 32]).indexOf 72) ∧
    byte_to_idx [72, 32] 99 = none := by
  have h := vocab_bijection [72, 32]
  exact ⟨(h.2.2.2.2.1 72 (by decide)).1, h.2.2.2.2.2.1 99 (by decide)⟩

/-- C6: decoding the encoded corpus through `idx_to_byte` recovers the corpus
exactly, for every corpus. -/
theorem encode_decode_round_trip (C : List Nat) :
    encode C (byte_to_idx C) = some (encodeAll C) ∧
    decode (encodeAll C) (idx_to_byte C) = some C :=
  ⟨encode_encodeAll C, decode_encodeAll C⟩

/-- Counterexample to C7 as stated: on the empty corpus the vocabulary
construction does not fail — it succeeds with an empty vocabulary
(`vocab_size = 0`, every lookup a KeyError). -/
theorem empty_corpus_cex :
    utf_bytes [] = [] ∧ (utf_bytes []).length = 0 ∧ byte_to_idx [] 32 = none := by
  decide

/-- C7 (amended): vocabulary construction never fails; on the empty corpus it
yields `vocab_size = 0` and encoding succeeds with an empty code list. The
empty-corpus run still fails, but later, inside `create_word_boundaries`,
whose `byte_to_idx[ord(' ')]` lookup finds no entry, so `main` fails there. -/
theorem empty_corpus_amended :
    (utf_bytes []).length = 0 ∧
    encode [] (byte_to_idx []) = some [] ∧
    create_word_boundaries [] (byte_to_idx []) (idx_to_byte []) = none ∧
    main [] = none := by
  decide

/-- C8: `encode` fails exactly when some byte of its input is absent from the
supplied vocabulary; when it succeeds it returns one code per input byte,
each the vocabulary's code for that byte. -/
theorem encode_error_iff (C : List Nat) (v : Nat → Option Nat) :
    (encode C v = none ↔ ∃ b, b ∈ C ∧ v b = none) ∧
    (∀ cs, encode C v = some cs → cs.length = C.length ∧
      ∀ i, i < C.length → v (C.getD i 0) = some (cs.getD i 0)) :=
  ⟨mapLookup_eq_none_iff v C, fun cs h => mapLookup_some_spec v C cs h⟩

/-- Witness for C8's theorem: encoding [72, 73] against the vocabulary built
from [72] fails, since 73 has no entry. -/
theorem encode_error_iff_witness :
    encode [72, 73] (byte_to_idx [72]) = none :=
  (encode_error_iff [72, 73] (byte_to_idx [72])).1.mpr ⟨73, by decide, by decide⟩

/-- The concrete pipeline output on the two-byte corpus "H " (72, 32). -/
def sampleOut : PipelineOutput :=
  ⟨2, [1, 0], [], [0, 0], [1], [], [1], [(0, 32), (1, 72)], [(32, 0), (72, 1)]⟩

/-- Counterexample to C9 as stated: on the corpus "H " the vocabulary has
size 2 ≤ 256, yet the train split file holds two bytes for its single code —
codes are always written as 2-byte `uint16`, never as 1-byte values. -/
theorem fixed_width_cex :
    Option.map PipelineOutput.vocab_size (main [72, 32]) = some 2 ∧
    (2 : Nat) ≤ 256 ∧
    Option.map PipelineOutput.train_bin (main [72, 32]) = some [1, 0] ∧
    ([1, 0] : List Nat).length = 2 := by
  decide

/-- C9 (amended: the code files always use a fixed 2-byte `uint16` per code,
regardless of vocabulary size): whenever the pipeline succeeds, the three code
files together hold exactly 2 bytes per corpus position, and the three
boundary files hold exactly one byte per corpus position, each 0 or 1. -/
theorem fixed_width_amended (C : List Nat) (out : PipelineOutput)
    (h : main C = some out) :
    out.train_bin.length + out.val_bin.length + out.test_bin.length
      = 2 * (C.take 40).length ∧
    out.train_word_boundaries.length + out.val_word_boundaries.length
      + out.test_word_boundaries.length = (C.take 40).length ∧
    (∀ b ∈ out.train_word_boundaries, b = 0 ∨ b = 1) ∧
    (∀ b ∈ out.val_word_boundaries, b = 0 ∨ b = 1) ∧
    (∀ b ∈ out.test_word_boundaries, b = 0 ∨ b = 1) := by
  simp only [main] at h
  rw [encode_encodeAll (C.take 40), Option.some_bind] at h
  have hex : create_word_boundaries (encodeAll (C.take 40)) (byte_to_idx (C.take 40))
      (idx_to_byte (C.take 40)) ≠ none := by
    intro hnone
    rw [hnone] at h
    exact absurd h (by simp)
  have hb32 : byte_to_idx (C.take 40) 32 ≠ none := by
    intro hnone
    apply hex
    unfold create_word_boundaries
    rw [hnone]
    rfl
  have hsp : 32 ∈ C.take 40 := by
    by_contra hns
    exact hb32 (byte_to_idx_not_mem hns)
  rw [create_word_boundaries_eq _ hsp, Option.some_bind] at h
  obtain rfl := (Option.some.inj h).symm
  have hencl : (encodeAll (C.take 40)).length = (C.take 40).length := by
    simp [encodeAll]
  have hwbl : (boundary_spec_list (C.take 40)).length = (C.take 40).length :=
    boundary_spec_list_length _
  refine ⟨?_, ?_, ?_, ?_, ?_⟩
  · simp only [length_serialize_u16]
    have := split3_length_sum (encodeAll (C.take 40)) (C.take 40).length hencl
    omega
  · exact split3_length_sum (boundary_spec_list (C.take 40)) (C.take 40).length hwbl
  · exact fun b hb => boundary_spec_list_flags _ b (split3_subset_left _ _ hb)
  · exact fun b hb => boundary_spec_list_flags _ b (split3_subset_mid _ _ hb)
  · exact fun b hb => boundary_spec_list_flags _ b (split3_subset_right _ _ hb)

/-- Witness for C9's amended theorem at the concrete corpus "H " (72, 32). -/
theorem fixed_width_amended_witness :
    sampleOut.train_bin.length + sampleOut.val_bin.length + sampleOut.test_bin.length
      = 2 * (([72, 32] : List Nat).take 40).length ∧
    sampleOut.train_word_boundaries.length + sampleOut.val_word_boundaries.length
      + sampleOut.test_word_boundaries.length = (([72, 32] : List Nat).take 40).length := by
  have h := fixed_width_amended [72, 32] sampleOut (by decide)
  exact ⟨h.1, h.2.1⟩

/-- C10: whenever the space byte 0x20 is absent from the corpus (the empty
corpus included), its vocabulary has no entry for 0x20 and
`create_word_boundaries` fails on that first lookup, for every encoded input,
producing no boundary sequence. -/
theorem missing_space_fails (C : List Nat) (h : 32 ∉ C) :
    byte_to_idx C 32 = none ∧
    ∀ encoded : List Nat,
      create_word_boundaries encoded (byte_to_idx C) (idx_to_byte C) = none := by
  have hb := byte_to_idx_not_mem h
  refine ⟨hb, fun encoded => ?_⟩
  unfold create_word_boundaries
  rw [hb]
  rfl

/-- Witness for C10's theorem at the space-free corpus "hi" (104, 105). -/
theorem missing_space_fails_witness :
    byte_to_idx [104, 105] 32 = none ∧
    create_word_boundaries (encodeAll [104, 105]) (byte_to_idx [104, 105])
      (idx_to_byte [104, 105]) = none := by
  have h := missing_space_fails [104, 105] (by decide)
  exact ⟨h.1, h.2 (encodeAll [104, 105])⟩

end Prepare
